import Mathlib

/-!
Shallow embedding of the monthly best-friends wall engine of
src/wechat_decrypt_tool/wrapped/cards/card_04_monthly_best_friends_wall.py.

The engine consumes a year-scoped event stream ordered by conversation id,
aggregates per (conversation, month) statistics in a single pass, scores the
eligible aggregates of each month, and selects one winner per month plus a
year champion.  Python floats are modelled by real numbers, machine integers
by Nat/Int, the calendar conversion (datetime.fromtimestamp) and the session
filter (_should_keep_session, defined outside this file set) are explicit
parameters of the pass.
-/

namespace MonthlyBestFriends

/-- Mirror of the _MonthConvAgg dataclass: per (conversation, month) counters. -/
structure MonthConvAgg where
  username : String
  month : ℕ
  incoming : ℕ := 0
  outgoing : ℕ := 0
  replies : ℕ := 0
  sum_gap : ℕ := 0
  sum_gap_capped : ℕ := 0
  active_days : Finset ℕ := ∅
  time_bucket_mask : ℕ := 0
  deriving DecidableEq

/-- Mirror of the total property: incoming + outgoing. -/
def MonthConvAgg.total (a : MonthConvAgg) : ℕ := a.incoming + a.outgoing

/-- Mirror of the interaction property: min(incoming, outgoing). -/
def MonthConvAgg.interaction (a : MonthConvAgg) : ℕ := min a.incoming a.outgoing

/-- Mirror of the active_days_count property: size of the day set. -/
def MonthConvAgg.active_days_count (a : MonthConvAgg) : ℕ := a.active_days.card

/-- Mirror of the time_bucket_count property: popcount of the low four bits. -/
def MonthConvAgg.time_bucket_count (a : MonthConvAgg) : ℕ :=
  let m := a.time_bucket_mask &&& 0xF
  (m &&& 1) + ((m >>> 1) &&& 1) + ((m >>> 2) &&& 1) + ((m >>> 3) &&& 1)

/-- Mirror of avg_reply_seconds: 0 when there is no reply, else sum_gap / replies. -/
def MonthConvAgg.avg_reply_seconds (a : MonthConvAgg) : ℚ :=
  if a.replies = 0 then 0 else (a.sum_gap : ℚ) / (a.replies : ℚ)

/-- Mirror of avg_reply_seconds_capped: 0 when there is no reply, else
sum_gap_capped / replies. -/
def MonthConvAgg.avg_reply_seconds_capped (a : MonthConvAgg) : ℚ :=
  if a.replies = 0 then 0 else (a.sum_gap_capped : ℚ) / (a.replies : ℚ)

/-- Mirror of observe: record the day of month (when in 1..31) and set the
bit of the 6-hour bucket of the hour. -/
def MonthConvAgg.observe (a : MonthConvAgg) (day hour : ℕ) : MonthConvAgg :=
  let a1 := if 1 ≤ day ∧ day ≤ 31 then { a with active_days := insert day a.active_days } else a
  let bucket := max 0 (min 3 (hour / 6))
  { a1 with time_bucket_mask := a1.time_bucket_mask ||| (1 <<< bucket) }

/-- Mirror of the weights dict passed to the scorer. -/
structure Weights where
  interaction : ℝ
  speed : ℝ
  continuity : ℝ
  coverage : ℝ

/-- Mirror of the weights literal in compute_monthly_best_friends_wall_stats. -/
def defaultWeights : Weights := ⟨0.40, 0.30, 0.20, 0.10⟩

/-- Mirror of tau_seconds = 30 * 60. -/
def tauSeconds : ℝ := 30 * 60

/-- Mirror of gap_cap_seconds = 6 * 60 * 60. -/
def gapCapSeconds : ℕ := 6 * 60 * 60

/-- Mirror of the dict returned by _score_month_agg. -/
structure ScoreBreakdown where
  interaction : ℝ
  speed : ℝ
  continuity : ℝ
  coverage : ℝ
  final : ℝ

/-- Mirror of _score_month_agg.  math.log1p x is Real.log (1 + x). -/
noncomputable def score_month_agg (agg : MonthConvAgg)
    (month_max_interaction month_max_active_days : ℕ)
    (tau_seconds : ℝ) (w : Weights) : ScoreBreakdown :=
  let max_interaction : ℕ := max 1 month_max_interaction
  let max_active : ℕ := max 1 month_max_active_days
  let interaction_score := Real.log (1 + (agg.interaction : ℝ)) / Real.log (1 + (max_interaction : ℝ))
  let speed_score := 1 / (1 + ((agg.avg_reply_seconds_capped : ℝ) / max 1 tau_seconds))
  let continuity_score := (agg.active_days_count : ℝ) / (max_active : ℝ)
  let coverage_score := (agg.time_bucket_count : ℝ) / 4
  let final_score := w.interaction * interaction_score + w.speed * speed_score
    + w.continuity * continuity_score + w.coverage * coverage_score
  ⟨interaction_score, speed_score, continuity_score, coverage_score, final_score⟩

/-- Row of the ordered event query: conversation id, sender id, epoch seconds. -/
structure MessageEvent where
  username : String
  sender : String
  ts : ℤ
  deriving DecidableEq

/-- Calendar fields extracted from a local timestamp (datetime.fromtimestamp). -/
structure CalDate where
  month : ℕ
  day : ℕ
  hour : ℕ

/-- Conversation-scoped and global state of the single forward pass. -/
structure PassState where
  cur_username : String
  conv_month_aggs : ℕ → Option MonthConvAgg
  prev_other_ts : Option ℤ
  per_month_aggs : ℕ → List MonthConvAgg

/-- Initial pass state: empty current conversation, no aggregates, no pools. -/
def initState : PassState :=
  { cur_username := ""
    conv_month_aggs := fun _ => none
    prev_other_ts := none
    per_month_aggs := fun _ => [] }

/-- Mirror of flush_conv: when a conversation is current, move every
in-progress aggregate with month in 1..12 and total > 0 into the global
per-month pool and clear the conversation-scoped state. -/
def flush_conv (st : PassState) : PassState :=
  if st.cur_username = "" then st
  else
    { st with
      per_month_aggs := fun m =>
        match st.conv_month_aggs m with
        | some agg =>
          if 1 ≤ m ∧ m ≤ 12 ∧ 0 < agg.total then st.per_month_aggs m ++ [agg]
          else st.per_month_aggs m
        | none => st.per_month_aggs m
      conv_month_aggs := fun _ => none
      prev_other_ts := none }

/-- Mirror of _MonthConvAgg(username=username, month=month): a fresh aggregate. -/
def newAgg (username : String) (month : ℕ) : MonthConvAgg :=
  { username := username, month := month }

/-- Tail of the loop body, after the conversation switch: skip sessions the
keep filter rejects; skip out-of-range months; fetch or create the month
aggregate, observe day and hour, then update the outgoing / reply-gap counters
(sender is the owner) or the incoming counter and pending timestamp (sender is
the peer). -/
def handle_event (my_username : String) (keep : String → Bool) (cal : ℤ → CalDate)
    (st1 : PassState) (e : MessageEvent) : PassState :=
  if ¬ keep e.username then st1
  else
    let d := cal e.ts
    if d.month < 1 ∨ 12 < d.month then st1
    else
      let agg0 := (st1.conv_month_aggs d.month).getD (newAgg e.username d.month)
      let agg1 := agg0.observe d.day d.hour
      if e.sender = my_username then
        let agg2 := { agg1 with outgoing := agg1.outgoing + 1 }
        match st1.prev_other_ts with
        | some p =>
          if p ≤ e.ts then
            let gap := (e.ts - p).toNat
            let agg3 := { agg2 with
              replies := agg2.replies + 1
              sum_gap := agg2.sum_gap + gap
              sum_gap_capped := agg2.sum_gap_capped + min gap gapCapSeconds }
            { st1 with
              conv_month_aggs := fun m => if m = d.month then some agg3 else st1.conv_month_aggs m
              prev_other_ts := none }
          else
            { st1 with
              conv_month_aggs := fun m => if m = d.month then some agg2 else st1.conv_month_aggs m }
        | none =>
          { st1 with
            conv_month_aggs := fun m => if m = d.month then some agg2 else st1.conv_month_aggs m }
      else
        let agg2 := { agg1 with incoming := agg1.incoming + 1 }
        { st1 with
          conv_month_aggs := fun m => if m = d.month then some agg2 else st1.conv_month_aggs m
          prev_other_ts := some e.ts }

/-- Body of the event loop of compute_monthly_best_friends_wall_stats for one
row: skip rows with ts ≤ 0 or an empty conversation id; flush and switch on a
conversation change; then handle the event. -/
def step (my_username : String) (keep : String → Bool) (cal : ℤ → CalDate)
    (st : PassState) (e : MessageEvent) : PassState :=
  if e.ts ≤ 0 ∨ e.username = "" then st
  else
    handle_event my_username keep cal
      (if e.username ≠ st.cur_username
        then { flush_conv st with cur_username := e.username } else st) e

/-- Whole aggregation pass: fold the events, then flush the last conversation;
the result is the global month → pool map. -/
def runPass (my_username : String) (keep : String → Bool) (cal : ℤ → CalDate)
    (events : List MessageEvent) : ℕ → List MonthConvAgg :=
  (flush_conv (events.foldl (step my_username keep cal) initState)).per_month_aggs

/-- Mirror of the eligibility dict: minTotalMessages. -/
def minTotalMessages : ℕ := 8

/-- Mirror of the eligibility dict: minInteraction. -/
def minInteraction : ℕ := 3

/-- Mirror of the eligibility dict: minReplyCount. -/
def minReplyCount : ℕ := 1

/-- Mirror of the eligibility dict: minActiveDays. -/
def minActiveDays : ℕ := 2

/-- Mirror of the four continue-guards of the eligibility filter. -/
def isEligible (a : MonthConvAgg) : Bool :=
  !(a.total < minTotalMessages) && !(a.interaction < minInteraction)
    && !(a.replies < minReplyCount) && !(a.active_days_count < minActiveDays)

/-- Eligible sub-list of a month pool, in pool order. -/
def eligibleOf (pool : List MonthConvAgg) : List MonthConvAgg :=
  pool.filter isEligible

/-- Mirror of max(agg.interaction for agg in eligible) (pools hold Nat values,
so a fold from 0 agrees with the Python max on a non-empty list). -/
def month_max_interaction (l : List MonthConvAgg) : ℕ :=
  (l.map MonthConvAgg.interaction).foldl max 0

/-- Mirror of max(agg.active_days_count for agg in eligible). -/
def month_max_active_days (l : List MonthConvAgg) : ℕ :=
  (l.map MonthConvAgg.active_days_count).foldl max 0

/-- Mirror of the tie_key tuple
(-final, -interaction, avg_reply_seconds_capped, -active_days_count, username),
compared lexicographically. -/
noncomputable def tie_key (mi ma : ℕ) (tau : ℝ) (w : Weights) (a : MonthConvAgg) :
    Lex (ℝ × Lex (ℤ × Lex (ℚ × Lex (ℤ × String)))) :=
  toLex (-(score_month_agg a mi ma tau w).final,
    toLex (-(a.interaction : ℤ),
      toLex (a.avg_reply_seconds_capped,
        toLex (-(a.active_days_count : ℤ), a.username))))

open Classical in
/-- Boolean comparator on aggregates induced by the tie key, used by the sort. -/
noncomputable def tie_le (mi ma : ℕ) (tau : ℝ) (w : Weights) (a b : MonthConvAgg) : Bool :=
  decide (tie_key mi ma tau w a ≤ tie_key mi ma tau w b)

/-- Mirror of the per-month selection: filter to the eligible aggregates,
sort the scored list by the tie key ascending, and take the first entry
(none when no aggregate is eligible). -/
noncomputable def month_winner (tau : ℝ) (w : Weights) (pool : List MonthConvAgg) :
    Option MonthConvAgg :=
  let eligible := eligibleOf pool
  (eligible.mergeSort
    (tie_le (month_max_interaction eligible) (month_max_active_days eligible) tau w)).head?

/-- Mirror of one element of the months array: month number, winner with its
score breakdown, raw statistics, and the reason field. -/
structure MonthResult where
  month : ℕ
  winner : Option (MonthConvAgg × ScoreBreakdown)
  raw : Option MonthConvAgg
  reason : Option String

/-- Month entry built from the month pool: either the insufficient_data record
or the winner with its breakdown and raw statistics. -/
noncomputable def month_entry (tau : ℝ) (w : Weights) (m : ℕ)
    (pool : List MonthConvAgg) : MonthResult :=
  match month_winner tau w pool with
  | none => ⟨m, none, none, some "insufficient_data"⟩
  | some agg =>
    ⟨m, some (agg, score_month_agg agg (month_max_interaction (eligibleOf pool))
        (month_max_active_days (eligibleOf pool)) tau w), some agg, none⟩

/-- Mirror of the months array loop: twelve entries, months 1..12 ascending. -/
noncomputable def compose_months (tau : ℝ) (w : Weights)
    (pools : ℕ → List MonthConvAgg) : List MonthResult :=
  (List.range 12).map (fun i => month_entry tau w (i + 1) (pools (i + 1)))

/-- Mirror of the tally loop over the months array: the username of every
month winner, dropping empty names (usernames are modelled as already
stripped, as the row intake strips them before any aggregate is built). -/
def winner_usernames (months : List MonthResult) : List String :=
  months.filterMap (fun it =>
    match it.winner with
    | some p => if p.1.username = "" then none else some p.1.username
    | none => none)

/-- Mirror of winner_month_counts.items(): each distinct winner username with
the number of months it won. -/
def champ_items (ws : List String) : List (String × ℕ) :=
  ws.dedup.map (fun u => (u, ws.count u))

/-- Mirror of the champion sort key (-count, username), as a comparator. -/
def champ_le (x y : String × ℕ) : Bool :=
  decide (y.2 < x.2) || (decide (x.2 = y.2) && decide (x.1 ≤ y.1))

/-- Mirror of the topChampion selection: sort the tally items by
(-count, username) and take the first, none when nothing was tallied. -/
def top_champion (months : List MonthResult) : Option (String × ℕ) :=
  ((champ_items (winner_usernames months)).mergeSort champ_le).head?

/-- Mirror of filled_months: the month numbers of the entries with a winner. -/
def filled_months (months : List MonthResult) : List ℕ :=
  (months.filter (fun it => it.winner.isSome)).map MonthResult.month

/-- Mirror of summary.monthsWithWinner: the length of filled_months. -/
def months_with_winner (months : List MonthResult) : ℕ :=
  (filled_months months).length

/-- Counters and identity fields are untouched by observe. -/
lemma observe_fields (a : MonthConvAgg) (d h : ℕ) :
    (a.observe d h).username = a.username ∧ (a.observe d h).month = a.month ∧
    (a.observe d h).incoming = a.incoming ∧ (a.observe d h).outgoing = a.outgoing ∧
    (a.observe d h).replies = a.replies ∧ (a.observe d h).sum_gap = a.sum_gap ∧
    (a.observe d h).sum_gap_capped = a.sum_gap_capped := by
  simp only [MonthConvAgg.observe]
  split <;> exact ⟨rfl, rfl, rfl, rfl, rfl, rfl, rfl⟩

/-- Head of a mergeSort with a transitive total comparator is a member that
compares at most every member of the input list. -/
lemma head_mergeSort_min {α : Type} (le : α → α → Bool)
    (htrans : ∀ a b c, le a b → le b c → le a c)
    (htot : ∀ a b, le a b || le b a)
    (l : List α) (hne : l ≠ []) :
    ∃ w l2, l.mergeSort le = w :: l2 ∧ w ∈ l ∧ ∀ b ∈ l, le w b = true := by
  cases hms : l.mergeSort le with
  | nil =>
    exfalso
    have hlen : (l.mergeSort le).length = l.length := List.length_mergeSort l
    rw [hms] at hlen
    exact hne (List.length_eq_zero.mp hlen.symm)
  | cons w l2 =>
    refine ⟨w, l2, rfl, ?_, ?_⟩
    · have hw : w ∈ l.mergeSort le := by rw [hms]; exact List.mem_cons_self w l2
      exact List.mem_mergeSort.mp hw
    · intro b hb
      have hbms : b ∈ l.mergeSort le := List.mem_mergeSort.mpr hb
      rw [hms] at hbms
      rcases List.mem_cons.mp hbms with rfl | htail
      · have h2 := htot b b
        rcases Bool.or_eq_true_iff.mp h2 with h3 | h3 <;> exact h3
      · have hp := List.sorted_mergeSort htrans htot l
        rw [hms] at hp
        exact (List.pairwise_cons.mp hp).1 b htail

/-- The tie comparator is transitive. -/
lemma tie_le_trans (mi ma : ℕ) (tau : ℝ) (w : Weights) :
    ∀ a b c, tie_le mi ma tau w a b → tie_le mi ma tau w b c → tie_le mi ma tau w a c := by
  intro a b c hab hbc
  simp only [tie_le, decide_eq_true_eq] at hab hbc ⊢
  exact le_trans hab hbc

/-- The tie comparator is total. -/
lemma tie_le_total (mi ma : ℕ) (tau : ℝ) (w : Weights) :
    ∀ a b, tie_le mi ma tau w a b || tie_le mi ma tau w b a := by
  intro a b
  rcases le_total (tie_key mi ma tau w a) (tie_key mi ma tau w b) with h | h
  · simp [tie_le, h]
  · simp [tie_le, h]

/-- Tie-key comparison implies comparison of final scores (first component). -/
lemma tie_key_le_final {mi ma : ℕ} {tau : ℝ} {w : Weights} {a b : MonthConvAgg}
    (h : tie_key mi ma tau w a ≤ tie_key mi ma tau w b) :
    (score_month_agg b mi ma tau w).final ≤ (score_month_agg a mi ma tau w).final := by
  simp only [tie_key] at h
  rcases (Prod.Lex.le_iff _ _).mp h with h1 | ⟨h1, _⟩
  · dsimp only at h1
    linarith
  · dsimp only at h1
    linarith [le_of_eq h1]

/-- Equal tie keys force equal usernames (last component). -/
lemma tie_key_inj_username {mi ma : ℕ} {tau : ℝ} {w : Weights} {a b : MonthConvAgg}
    (h : tie_key mi ma tau w a = tie_key mi ma tau w b) : a.username = b.username := by
  simp only [tie_key, toLex_inj, Prod.mk.injEq] at h
  exact h.2.2.2.2

/-- Core selection fact: with a non-empty eligible list the sort yields a head
that is a member and tie-key-minimal among the eligible aggregates. -/
lemma month_winner_min (tau : ℝ) (w : Weights) (pool : List MonthConvAgg)
    (hne : eligibleOf pool ≠ []) :
    ∃ win, month_winner tau w pool = some win ∧ win ∈ eligibleOf pool ∧
      ∀ b ∈ eligibleOf pool,
        tie_key (month_max_interaction (eligibleOf pool))
            (month_max_active_days (eligibleOf pool)) tau w win
          ≤ tie_key (month_max_interaction (eligibleOf pool))
            (month_max_active_days (eligibleOf pool)) tau w b := by
  obtain ⟨wn, l2, hms, hmem, hall⟩ :=
    head_mergeSort_min
      (tie_le (month_max_interaction (eligibleOf pool))
        (month_max_active_days (eligibleOf pool)) tau w)
      (tie_le_trans _ _ _ _) (tie_le_total _ _ _ _) (eligibleOf pool) hne
  refine ⟨wn, ?_, hmem, ?_⟩
  · simp only [month_winner]
    rw [hms]
    rfl
  · intro b hb
    have h2 := hall b hb
    simpa only [tie_le, decide_eq_true_eq] using h2

/-- Membership of a returned winner in the eligible list. -/
lemma month_winner_mem {tau : ℝ} {w : Weights} {pool : List MonthConvAgg}
    {win : MonthConvAgg} (h : month_winner tau w pool = some win) :
    win ∈ eligibleOf pool := by
  simp only [month_winner] at h
  cases hms : (eligibleOf pool).mergeSort
      (tie_le (month_max_interaction (eligibleOf pool))
        (month_max_active_days (eligibleOf pool)) tau w) with
  | nil => rw [hms] at h; exact absurd h (by simp)
  | cons a l2 =>
    rw [hms] at h
    have ha : a = win := by simpa using h
    subst ha
    have : a ∈ (eligibleOf pool).mergeSort
        (tie_le (month_max_interaction (eligibleOf pool))
          (month_max_active_days (eligibleOf pool)) tau w) := by
      rw [hms]; exact List.mem_cons_self a l2
    exact List.mem_mergeSort.mp this

/-- Shared concrete aggregate passing every eligibility threshold. -/
def sampleAgg : MonthConvAgg :=
  { username := "alice", month := 1, incoming := 4, outgoing := 4, replies := 1,
    sum_gap := 60, sum_gap_capped := 60, active_days := {1, 2}, time_bucket_mask := 1 }

/-- C1: for every month whose eligible pool is non-empty the selector returns
exactly one winner, the first aggregate under the ascending tie-key order
(-finalScore, -interaction, avgReplyGapCappedSeconds, -activeDaysCount,
conversationId); the winner has the maximum finalScore among the eligible
aggregates and, when conversation ids are distinct, it is the unique strictly
tie-key-minimal eligible aggregate, so the outcome is determined even on score
ties. -/
theorem claim1_month_winner_spec (tau : ℝ) (w : Weights) (pool : List MonthConvAgg)
    (hne : eligibleOf pool ≠ [])
    (hnd : ((eligibleOf pool).map MonthConvAgg.username).Nodup) :
    ∃ win, month_winner tau w pool = some win ∧ win ∈ eligibleOf pool ∧
      (∀ b ∈ eligibleOf pool,
        (score_month_agg b (month_max_interaction (eligibleOf pool))
            (month_max_active_days (eligibleOf pool)) tau w).final
          ≤ (score_month_agg win (month_max_interaction (eligibleOf pool))
            (month_max_active_days (eligibleOf pool)) tau w).final) ∧
      (∀ b ∈ eligibleOf pool, b ≠ win →
        tie_key (month_max_interaction (eligibleOf pool))
            (month_max_active_days (eligibleOf pool)) tau w win
          < tie_key (month_max_interaction (eligibleOf pool))
            (month_max_active_days (eligibleOf pool)) tau w b) ∧
      (∀ w2 ∈ eligibleOf pool,
        (∀ b ∈ eligibleOf pool, b ≠ w2 →
          tie_key (month_max_interaction (eligibleOf pool))
              (month_max_active_days (eligibleOf pool)) tau w w2
            < tie_key (month_max_interaction (eligibleOf pool))
              (month_max_active_days (eligibleOf pool)) tau w b) → w2 = win) := by
  obtain ⟨win, hw, hmem, hmin⟩ := month_winner_min tau w pool hne
  refine ⟨win, hw, hmem, ?_, ?_, ?_⟩
  · intro b hb
    exact tie_key_le_final (hmin b hb)
  · intro b hb hbne
    refine lt_of_le_of_ne (hmin b hb) ?_
    intro heq
    exact hbne (List.inj_on_of_nodup_map hnd hb hmem (tie_key_inj_username heq.symm))
  · intro w2 hw2 hstrict
    by_contra hne2
    have h1 := hstrict win hmem (fun hc => hne2 hc.symm)
    have h2 := hmin w2 hw2
    exact absurd (lt_of_le_of_lt h2 h1) (lt_irrefl _)

/-- Witness for C1 at a one-aggregate pool. -/
theorem claim1_month_winner_spec_witness :
    eligibleOf [sampleAgg] ≠ [] ∧
    ((eligibleOf [sampleAgg]).map MonthConvAgg.username).Nodup ∧
    (∃ win, month_winner tauSeconds defaultWeights [sampleAgg] = some win) := by
  refine ⟨by decide, by decide, ?_⟩
  obtain ⟨win, hw, -, -, -, -⟩ :=
    claim1_month_winner_spec tauSeconds defaultWeights [sampleAgg] (by decide) (by decide)
  exact ⟨win, hw⟩

/-- Unfolding of the eligibility guard. -/
lemma isEligible_iff (a : MonthConvAgg) :
    isEligible a = true ↔
      minTotalMessages ≤ a.total ∧ minInteraction ≤ a.interaction ∧
      minReplyCount ≤ a.replies ∧ minActiveDays ≤ a.active_days_count := by
  simp [isEligible, not_lt, and_assoc]

/-- Shared concrete aggregate with total 7, failing the first threshold only. -/
def sampleAgg7 : MonthConvAgg :=
  { username := "bob", month := 1, incoming := 3, outgoing := 4, replies := 1,
    sum_gap := 60, sum_gap_capped := 60, active_days := {1, 2}, time_bucket_mask := 1 }

/-- C5: a non-null month winner always meets total ≥ 8, interaction ≥ 3,
replyCount ≥ 1 and activeDaysCount ≥ 2 (in particular its total is never 7),
and a month whose pool has no aggregate meeting all four thresholds yields the
record with winner null and reason insufficient_data. -/
theorem claim5_winner_thresholds (tau : ℝ) (w : Weights) (pool : List MonthConvAgg) (m : ℕ) :
    (∀ win, month_winner tau w pool = some win →
      (minTotalMessages ≤ win.total ∧ minInteraction ≤ win.interaction ∧
        minReplyCount ≤ win.replies ∧ minActiveDays ≤ win.active_days_count) ∧
      win.total ≠ 7) ∧
    ((∀ a ∈ pool, isEligible a = false) →
      month_entry tau w m pool = ⟨m, none, none, some "insufficient_data"⟩) := by
  constructor
  · intro win hwin
    have hmem := month_winner_mem hwin
    have helig := (List.mem_filter.mp hmem).2
    have hth := (isEligible_iff win).mp helig
    refine ⟨hth, ?_⟩
    intro h7
    have := hth.1
    rw [h7] at this
    simp [minTotalMessages] at this
  · intro hnone
    have hel : eligibleOf pool = [] := by
      apply List.filter_eq_nil_iff.mpr
      intro a ha
      simp [hnone a ha]
    have hwin : month_winner tau w pool = none := by
      simp only [month_winner]
      rw [hel, List.mergeSort_nil]
      rfl
    simp only [month_entry, hwin]

/-- Witness for C5: the single-aggregate pool has a winner meeting all
thresholds, and a total-7 pool produces the insufficient_data record. -/
theorem claim5_winner_thresholds_witness :
    month_winner tauSeconds defaultWeights [sampleAgg] = some sampleAgg ∧
    (minTotalMessages ≤ sampleAgg.total ∧ minInteraction ≤ sampleAgg.interaction ∧
      minReplyCount ≤ sampleAgg.replies ∧ minActiveDays ≤ sampleAgg.active_days_count) ∧
    sampleAgg.total ≠ 7 ∧
    (∀ a ∈ [sampleAgg7], isEligible a = false) ∧
    month_entry tauSeconds defaultWeights 1 [sampleAgg7] = ⟨1, none, none, some "insufficient_data"⟩ := by
  have hel : eligibleOf [sampleAgg] = [sampleAgg] := by decide
  have hwin : month_winner tauSeconds defaultWeights [sampleAgg] = some sampleAgg := by
    simp only [month_winner]
    rw [hel, List.mergeSort_singleton]
    rfl
  have h1 := (claim5_winner_thresholds tauSeconds defaultWeights [sampleAgg] 1).1 sampleAgg hwin
  have h2 := (claim5_winner_thresholds tauSeconds defaultWeights [sampleAgg7] 1).2 (by decide)
  exact ⟨hwin, h1.1, h1.2, by decide, h2⟩

/-- Projection of the interaction score. -/
lemma score_interaction_def (agg : MonthConvAgg) (mi ma : ℕ) (tau : ℝ) (w : Weights) :
    (score_month_agg agg mi ma tau w).interaction
      = Real.log (1 + (agg.interaction : ℝ)) / Real.log (1 + ((max 1 mi : ℕ) : ℝ)) := rfl

/-- Projection of the speed score. -/
lemma score_speed_def (agg : MonthConvAgg) (mi ma : ℕ) (tau : ℝ) (w : Weights) :
    (score_month_agg agg mi ma tau w).speed
      = 1 / (1 + ((agg.avg_reply_seconds_capped : ℝ) / max 1 tau)) := rfl

/-- Projection of the continuity score. -/
lemma score_continuity_def (agg : MonthConvAgg) (mi ma : ℕ) (tau : ℝ) (w : Weights) :
    (score_month_agg agg mi ma tau w).continuity
      = (agg.active_days_count : ℝ) / ((max 1 ma : ℕ) : ℝ) := rfl

/-- Projection of the coverage score. -/
lemma score_coverage_def (agg : MonthConvAgg) (mi ma : ℕ) (tau : ℝ) (w : Weights) :
    (score_month_agg agg mi ma tau w).coverage
      = (agg.time_bucket_count : ℝ) / 4 := rfl

/-- Projection of the final score as the weighted sum of the four scores. -/
lemma score_final_def (agg : MonthConvAgg) (mi ma : ℕ) (tau : ℝ) (w : Weights) :
    (score_month_agg agg mi ma tau w).final
      = w.interaction * (score_month_agg agg mi ma tau w).interaction
        + w.speed * (score_month_agg agg mi ma tau w).speed
        + w.continuity * (score_month_agg agg mi ma tau w).continuity
        + w.coverage * (score_month_agg agg mi ma tau w).coverage := rfl

/-- Capped average reply gap is non-negative. -/
lemma avg_capped_nonneg (a : MonthConvAgg) : (0 : ℝ) ≤ (a.avg_reply_seconds_capped : ℝ) := by
  have h : (0 : ℚ) ≤ a.avg_reply_seconds_capped := by
    unfold MonthConvAgg.avg_reply_seconds_capped
    split
    · exact le_refl 0
    · positivity
  exact_mod_cast h

/-- Popcount of a four-bit mask is at most four. -/
lemma time_bucket_count_le_four (a : MonthConvAgg) : a.time_bucket_count ≤ 4 := by
  have hdef : a.time_bucket_count
      = (a.time_bucket_mask &&& 0xF &&& 1) + ((a.time_bucket_mask &&& 0xF) >>> 1 &&& 1)
        + ((a.time_bucket_mask &&& 0xF) >>> 2 &&& 1)
        + ((a.time_bucket_mask &&& 0xF) >>> 3 &&& 1) := rfl
  rw [hdef]
  have h1 : a.time_bucket_mask &&& 0xF &&& 1 ≤ 1 := Nat.and_le_right
  have h2 : (a.time_bucket_mask &&& 0xF) >>> 1 &&& 1 ≤ 1 := Nat.and_le_right
  have h3 : (a.time_bucket_mask &&& 0xF) >>> 2 &&& 1 ≤ 1 := Nat.and_le_right
  have h4 : (a.time_bucket_mask &&& 0xF) >>> 3 &&& 1 ≤ 1 := Nat.and_le_right
  omega

/-- Cast form of the capped average over the primitive counters. -/
lemma avg_capped_cast (agg : MonthConvAgg) :
    ((agg.avg_reply_seconds_capped : ℚ) : ℝ)
      = if agg.replies = 0 then (0 : ℝ)
        else (agg.sum_gap_capped : ℝ) / (agg.replies : ℝ) := by
  unfold MonthConvAgg.avg_reply_seconds_capped
  split
  · norm_num
  · push_cast
    ring

/-- C4: with τ = 1800 the scorer returns exactly the specified normalized
formulas (interaction via log1p ratio, speed via reciprocal decay over the
capped average with avg 0 and speed 1 for zero replies, continuity and
coverage as ratios, final as the 0.40/0.30/0.20/0.10 weighted sum), and when
interaction ≤ maxInteraction and activeDaysCount ≤ maxActiveDays all five
values lie in [0, 1]. -/
theorem claim4_score_breakdown (agg : MonthConvAgg) (mi ma : ℕ)
    (hmi : agg.interaction ≤ mi) (hma : agg.active_days_count ≤ ma) :
    ((score_month_agg agg mi ma tauSeconds defaultWeights).interaction
        = Real.log (1 + (agg.interaction : ℝ)) / Real.log (1 + ((max 1 mi : ℕ) : ℝ)))
    ∧ ((score_month_agg agg mi ma tauSeconds defaultWeights).speed
        = 1 / (1 + ((if agg.replies = 0 then (0 : ℝ)
            else (agg.sum_gap_capped : ℝ) / (agg.replies : ℝ)) / 1800)))
    ∧ (agg.replies = 0 → (score_month_agg agg mi ma tauSeconds defaultWeights).speed = 1)
    ∧ ((score_month_agg agg mi ma tauSeconds defaultWeights).continuity
        = (agg.active_days_count : ℝ) / ((max 1 ma : ℕ) : ℝ))
    ∧ ((score_month_agg agg mi ma tauSeconds defaultWeights).coverage
        = (agg.time_bucket_count : ℝ) / 4)
    ∧ ((score_month_agg agg mi ma tauSeconds defaultWeights).final
        = 0.40 * (score_month_agg agg mi ma tauSeconds defaultWeights).interaction
          + 0.30 * (score_month_agg agg mi ma tauSeconds defaultWeights).speed
          + 0.20 * (score_month_agg agg mi ma tauSeconds defaultWeights).continuity
          + 0.10 * (score_month_agg agg mi ma tauSeconds defaultWeights).coverage)
    ∧ (0 ≤ (score_month_agg agg mi ma tauSeconds defaultWeights).interaction
        ∧ (score_month_agg agg mi ma tauSeconds defaultWeights).interaction ≤ 1)
    ∧ (0 ≤ (score_month_agg agg mi ma tauSeconds defaultWeights).speed
        ∧ (score_month_agg agg mi ma tauSeconds defaultWeights).speed ≤ 1)
    ∧ (0 ≤ (score_month_agg agg mi ma tauSeconds defaultWeights).continuity
        ∧ (score_month_agg agg mi ma tauSeconds defaultWeights).continuity ≤ 1)
    ∧ (0 ≤ (score_month_agg agg mi ma tauSeconds defaultWeights).coverage
        ∧ (score_month_agg agg mi ma tauSeconds defaultWeights).coverage ≤ 1)
    ∧ (0 ≤ (score_month_agg agg mi ma tauSeconds defaultWeights).final
        ∧ (score_month_agg agg mi ma tauSeconds defaultWeights).final ≤ 1) := by
  have hmax1800 : max (1 : ℝ) tauSeconds = 1800 := by
    unfold tauSeconds
    norm_num
  have hnum0 : 0 ≤ Real.log (1 + (agg.interaction : ℝ)) := by
    apply Real.log_nonneg
    have h0 : (0 : ℝ) ≤ (agg.interaction : ℝ) := Nat.cast_nonneg _
    linarith
  have hden1 : (1 : ℝ) < 1 + ((max 1 mi : ℕ) : ℝ) := by
    have h1 : (1 : ℝ) ≤ ((max 1 mi : ℕ) : ℝ) := by
      exact_mod_cast le_max_left 1 mi
    linarith
  have hdenpos : 0 < Real.log (1 + ((max 1 mi : ℕ) : ℝ)) := Real.log_pos hden1
  have hmono : Real.log (1 + (agg.interaction : ℝ)) ≤ Real.log (1 + ((max 1 mi : ℕ) : ℝ)) := by
    have harg : (agg.interaction : ℝ) ≤ ((max 1 mi : ℕ) : ℝ) := by
      exact_mod_cast le_trans hmi (le_max_right 1 mi)
    have hpos : (0 : ℝ) < 1 + (agg.interaction : ℝ) := by
      have h0 : (0 : ℝ) ≤ (agg.interaction : ℝ) := Nat.cast_nonneg _
      linarith
    exact Real.log_le_log hpos (by linarith)
  have hi01 : 0 ≤ (score_month_agg agg mi ma tauSeconds defaultWeights).interaction
      ∧ (score_month_agg agg mi ma tauSeconds defaultWeights).interaction ≤ 1 := by
    rw [score_interaction_def]
    exact ⟨div_nonneg hnum0 hdenpos.le, (div_le_one hdenpos).mpr hmono⟩
  have havg := avg_capped_nonneg agg
  have hq : 0 ≤ (agg.avg_reply_seconds_capped : ℝ) / max 1 tauSeconds :=
    div_nonneg havg (le_of_lt (lt_of_lt_of_le one_pos (le_max_left 1 tauSeconds)))
  have hs01 : 0 ≤ (score_month_agg agg mi ma tauSeconds defaultWeights).speed
      ∧ (score_month_agg agg mi ma tauSeconds defaultWeights).speed ≤ 1 := by
    rw [score_speed_def]
    constructor
    · positivity
    · rw [div_le_one (by linarith)]
      linarith
  have hc01 : 0 ≤ (score_month_agg agg mi ma tauSeconds defaultWeights).continuity
      ∧ (score_month_agg agg mi ma tauSeconds defaultWeights).continuity ≤ 1 := by
    rw [score_continuity_def]
    have hdpos : (0 : ℝ) < ((max 1 ma : ℕ) : ℝ) := by
      have h1 : (1 : ℝ) ≤ ((max 1 ma : ℕ) : ℝ) := by exact_mod_cast le_max_left 1 ma
      linarith
    constructor
    · exact div_nonneg (Nat.cast_nonneg _) hdpos.le
    · rw [div_le_one hdpos]
      exact_mod_cast le_trans hma (le_max_right 1 ma)
  have hv01 : 0 ≤ (score_month_agg agg mi ma tauSeconds defaultWeights).coverage
      ∧ (score_month_agg agg mi ma tauSeconds defaultWeights).coverage ≤ 1 := by
    rw [score_coverage_def]
    constructor
    · positivity
    · rw [div_le_one (by norm_num)]
      exact_mod_cast time_bucket_count_le_four agg
  have hfdef : (score_month_agg agg mi ma tauSeconds defaultWeights).final
      = 0.40 * (score_month_agg agg mi ma tauSeconds defaultWeights).interaction
        + 0.30 * (score_month_agg agg mi ma tauSeconds defaultWeights).speed
        + 0.20 * (score_month_agg agg mi ma tauSeconds defaultWeights).continuity
        + 0.10 * (score_month_agg agg mi ma tauSeconds defaultWeights).coverage := rfl
  refine ⟨rfl, ?_, ?_, rfl, rfl, hfdef, hi01, hs01, hc01, hv01, ?_⟩
  · rw [score_speed_def, hmax1800, avg_capped_cast]
  · intro h0
    rw [score_speed_def]
    unfold MonthConvAgg.avg_reply_seconds_capped
    rw [if_pos h0]
    norm_num
  · constructor
    · rw [hfdef]
      linarith [hi01.1, hs01.1, hc01.1, hv01.1]
    · rw [hfdef]
      linarith [hi01.2, hs01.2, hc01.2, hv01.2]

/-- Witness for C4 at the shared sample aggregate with maxima 4 and 2. -/
theorem claim4_score_breakdown_witness :
    sampleAgg.interaction ≤ 4 ∧ sampleAgg.active_days_count ≤ 2 ∧
    (0 ≤ (score_month_agg sampleAgg 4 2 tauSeconds defaultWeights).final
      ∧ (score_month_agg sampleAgg 4 2 tauSeconds defaultWeights).final ≤ 1) := by
  refine ⟨by decide, by decide, ?_⟩
  obtain ⟨-, -, -, -, -, -, -, -, -, -, hf⟩ :=
    claim4_score_breakdown sampleAgg 4 2 (by decide) (by decide)
  exact hf

/-- C7: holding the aggregate and maxima fixed, the speed score is
non-decreasing in the decay constant τ whenever replyCount > 0. -/
theorem claim7_speed_tau_monotone (agg : MonthConvAgg) (mi ma : ℕ) (w : Weights)
    (t1 t2 : ℝ) (hrep : 0 < agg.replies) (ht1 : 0 < t1) (h12 : t1 ≤ t2) :
    (score_month_agg agg mi ma t1 w).speed ≤ (score_month_agg agg mi ma t2 w).speed := by
  rw [score_speed_def, score_speed_def]
  have havg := avg_capped_nonneg agg
  have hm1 : (0 : ℝ) < max 1 t1 := lt_of_lt_of_le one_pos (le_max_left 1 t1)
  have hmle : max (1 : ℝ) t1 ≤ max 1 t2 := max_le_max (le_refl 1) h12
  have hdiv : (agg.avg_reply_seconds_capped : ℝ) / max 1 t2
      ≤ (agg.avg_reply_seconds_capped : ℝ) / max 1 t1 := by
    gcongr
  have hpos2 : (0 : ℝ) < 1 + (agg.avg_reply_seconds_capped : ℝ) / max 1 t2 := by
    have : 0 ≤ (agg.avg_reply_seconds_capped : ℝ) / max 1 t2 :=
      div_nonneg havg (le_of_lt (lt_of_lt_of_le one_pos (le_max_left 1 t2)))
    linarith
  exact one_div_le_one_div_of_le hpos2 (by linarith)

/-- Witness for C7 at the shared sample aggregate with τ growing from 1 to 2. -/
theorem claim7_speed_tau_monotone_witness :
    0 < sampleAgg.replies ∧ (0 : ℝ) < 1 ∧ (1 : ℝ) ≤ 2 ∧
    (score_month_agg sampleAgg 4 2 1 defaultWeights).speed
      ≤ (score_month_agg sampleAgg 4 2 2 defaultWeights).speed :=
  ⟨by decide, by norm_num, by norm_num,
    claim7_speed_tau_monotone sampleAgg 4 2 defaultWeights 1 2 (by decide) (by norm_num) (by norm_num)⟩

/-- The selector returns none exactly when nothing is eligible. -/
lemma month_winner_none_iff (tau : ℝ) (w : Weights) (pool : List MonthConvAgg) :
    month_winner tau w pool = none ↔ eligibleOf pool = [] := by
  simp only [month_winner, List.head?_eq_none_iff]
  constructor
  · intro h
    have hlen : ((eligibleOf pool).mergeSort
        (tie_le (month_max_interaction (eligibleOf pool))
          (month_max_active_days (eligibleOf pool)) tau w)).length
        = (eligibleOf pool).length := List.length_mergeSort (eligibleOf pool)
    rw [h] at hlen
    exact List.length_eq_zero.mp hlen.symm
  · intro h
    rw [h, List.mergeSort_nil]

/-- C6: the months array has exactly twelve entries, one per month 1..12 in
ascending order; every entry carries reason null or insufficient_data; reason
is insufficient_data, with winner and raw null, exactly when the month has no
eligible aggregate (in particular when there are no events at all), and reason
is null exactly when a winner is present. -/
theorem claim6_months_shape (tau : ℝ) (w : Weights) (pools : ℕ → List MonthConvAgg) :
    (compose_months tau w pools).length = 12
    ∧ (∀ i, i < 12 →
        (compose_months tau w pools)[i]? = some (month_entry tau w (i + 1) (pools (i + 1))))
    ∧ (∀ m pool,
        (month_entry tau w m pool).month = m
        ∧ ((month_entry tau w m pool).reason = some "insufficient_data"
            ∨ (month_entry tau w m pool).reason = none)
        ∧ ((month_entry tau w m pool).reason = some "insufficient_data" ↔ eligibleOf pool = [])
        ∧ ((month_entry tau w m pool).reason = some "insufficient_data"
            → (month_entry tau w m pool).winner = none ∧ (month_entry tau w m pool).raw = none)
        ∧ ((month_entry tau w m pool).reason = none
            ↔ (month_entry tau w m pool).winner.isSome = true)) := by
  refine ⟨by simp [compose_months], ?_, ?_⟩
  · intro i hi
    simp [compose_months, List.getElem?_map, List.getElem?_range, hi]
  · intro m pool
    cases hw : month_winner tau w pool with
    | none =>
      have hel := (month_winner_none_iff tau w pool).mp hw
      simp [month_entry, hw, hel]
    | some a =>
      have hne : ¬ eligibleOf pool = [] := by
        intro hel
        rw [(month_winner_none_iff tau w pool).mpr hel] at hw
        exact Option.noConfusion hw
      simp [month_entry, hw, hne]

/-- Witness for C6 at the empty pools (the no-index / no-events degradation). -/
theorem claim6_months_shape_witness :
    (compose_months tauSeconds defaultWeights (fun _ => [])).length = 12
    ∧ (compose_months tauSeconds defaultWeights (fun _ => []))[0]?
        = some (month_entry tauSeconds defaultWeights 1 [])
    ∧ ((month_entry tauSeconds defaultWeights 1 []).reason = some "insufficient_data"
        ↔ eligibleOf ([] : List MonthConvAgg) = []) := by
  obtain ⟨h1, h2, h3⟩ := claim6_months_shape tauSeconds defaultWeights (fun _ => [])
  exact ⟨h1, h2 0 (by norm_num), (h3 1 []).2.2.1⟩

/-- Unfolding of the champion comparator. -/
lemma champ_le_iff (x y : String × ℕ) :
    champ_le x y = true ↔ y.2 < x.2 ∨ (x.2 = y.2 ∧ x.1 ≤ y.1) := by
  simp [champ_le]

/-- The champion comparator is transitive. -/
lemma champ_le_trans : ∀ x y z, champ_le x y → champ_le y z → champ_le x z := by
  intro x y z hxy hyz
  rw [champ_le_iff] at hxy hyz ⊢
  rcases hxy with h1 | ⟨h1, h2⟩ <;> rcases hyz with h3 | ⟨h3, h4⟩
  · exact Or.inl (by omega)
  · exact Or.inl (by omega)
  · exact Or.inl (by omega)
  · exact Or.inr ⟨by omega, le_trans h2 h4⟩

/-- The champion comparator is total. -/
lemma champ_le_total : ∀ x y, champ_le x y || champ_le y x := by
  intro x y
  rcases lt_trichotomy x.2 y.2 with h | h | h
  · have : champ_le y x = true := (champ_le_iff y x).mpr (Or.inl h)
    simp [this]
  · rcases le_total x.1 y.1 with h2 | h2
    · have : champ_le x y = true := (champ_le_iff x y).mpr (Or.inr ⟨h, h2⟩)
      simp [this]
    · have : champ_le y x = true := (champ_le_iff y x).mpr (Or.inr ⟨h.symm, h2⟩)
      simp [this]
  · have : champ_le x y = true := (champ_le_iff x y).mpr (Or.inl h)
    simp [this]

/-- Elements of the tally list are usernames of the list with their counts. -/
lemma champ_items_mem {ws : List String} {u : String} {n : ℕ}
    (h : (u, n) ∈ champ_items ws) : u ∈ ws ∧ n = ws.count u := by
  simp only [champ_items, List.mem_map] at h
  obtain ⟨v, hv, heq⟩ := h
  have h1 : v = u := congrArg Prod.fst heq
  have h2 : ws.count v = n := congrArg Prod.snd heq
  subst h1
  exact ⟨List.mem_dedup.mp hv, h2.symm⟩

/-- Every username of the list appears in the tally with its count. -/
lemma champ_items_mem_of_mem {ws : List String} {v : String} (h : v ∈ ws) :
    (v, ws.count v) ∈ champ_items ws := by
  simp only [champ_items, List.mem_map]
  exact ⟨v, List.mem_dedup.mpr h, rfl⟩

/-- The tally list is empty exactly when the username list is empty. -/
lemma champ_items_eq_nil_iff (ws : List String) : champ_items ws = [] ↔ ws = [] := by
  simp [champ_items, List.dedup_eq_nil]

/-- With clean winner usernames, the tally source is empty exactly when no
month has a winner. -/
lemma winner_usernames_nil_iff (months : List MonthResult)
    (hclean : ∀ r ∈ months, ∀ p : MonthConvAgg × ScoreBreakdown, r.winner = some p →
      p.1.username ≠ "") :
    winner_usernames months = [] ↔ ∀ r ∈ months, r.winner = none := by
  simp only [winner_usernames, List.filterMap_eq_nil_iff]
  constructor
  · intro h r hr
    cases hwin : r.winner with
    | none => rfl
    | some p =>
      have hc := hclean r hr p hwin
      have h2 := h r hr
      rw [hwin] at h2
      dsimp only at h2
      rw [if_neg hc] at h2
      exact absurd h2 (by simp)
  · intro h r hr
    rw [h r hr]

/-- The champion is none exactly when the tally source is empty. -/
lemma top_champion_none_iff (months : List MonthResult) :
    top_champion months = none ↔ winner_usernames months = [] := by
  simp only [top_champion, List.head?_eq_none_iff]
  constructor
  · intro h
    have hlen : ((champ_items (winner_usernames months)).mergeSort champ_le).length
        = (champ_items (winner_usernames months)).length :=
      List.length_mergeSort (champ_items (winner_usernames months))
    rw [h] at hlen
    exact (champ_items_eq_nil_iff _).mp (List.length_eq_zero.mp hlen.symm)
  · intro h
    rw [(champ_items_eq_nil_iff _).mpr h, List.mergeSort_nil]

/-- C8: topChampion is the conversation id winning the most months, with
monthsWon equal to that tally, ties broken toward the lexicographically
smaller id; it is null exactly when no month has a winner; monthsWithWinner
counts the months with a winner and filledMonths lists exactly those months. -/
theorem claim8_year_summary (months : List MonthResult)
    (hclean : ∀ r ∈ months, ∀ p : MonthConvAgg × ScoreBreakdown, r.winner = some p →
      p.1.username ≠ "") :
    (top_champion months = none ↔ ∀ r ∈ months, r.winner = none)
    ∧ (∀ u n, top_champion months = some (u, n) →
        u ∈ winner_usernames months
        ∧ n = (winner_usernames months).count u
        ∧ (∀ v ∈ winner_usernames months, (winner_usernames months).count v ≤ n)
        ∧ (∀ v ∈ winner_usernames months, (winner_usernames months).count v = n → u ≤ v))
    ∧ months_with_winner months = months.countP (fun r => r.winner.isSome)
    ∧ (∀ m : ℕ, m ∈ filled_months months
        ↔ ∃ r ∈ months, r.winner.isSome = true ∧ r.month = m) := by
  refine ⟨?_, ?_, ?_, ?_⟩
  · rw [top_champion_none_iff]
    exact winner_usernames_nil_iff months hclean
  · intro u n h
    have hne : champ_items (winner_usernames months) ≠ [] := by
      intro h0
      simp only [top_champion] at h
      rw [h0, List.mergeSort_nil] at h
      exact Option.noConfusion h
    obtain ⟨wmin, l2, hms, hmem, hall⟩ :=
      head_mergeSort_min champ_le champ_le_trans champ_le_total _ hne
    have hw : wmin = (u, n) := by
      simp only [top_champion] at h
      rw [hms] at h
      simpa using h
    subst hw
    obtain ⟨humem, hcount⟩ := champ_items_mem hmem
    refine ⟨humem, hcount, ?_, ?_⟩
    · intro v hv
      have h2 := hall (v, (winner_usernames months).count v) (champ_items_mem_of_mem hv)
      rcases (champ_le_iff _ _).mp h2 with h3 | ⟨h3, _⟩
      · exact le_of_lt h3
      · exact le_of_eq h3.symm
    · intro v hv hveq
      have h2 := hall (v, (winner_usernames months).count v) (champ_items_mem_of_mem hv)
      rcases (champ_le_iff _ _).mp h2 with h3 | ⟨-, h4⟩
      · exact absurd hveq (by omega)
      · exact h4
  · simp [months_with_winner, filled_months, List.countP_eq_length_filter]
  · intro m
    simp only [filled_months, List.mem_map, List.mem_filter]
    constructor
    · rintro ⟨r, ⟨hr, hw⟩, hm⟩
      exact ⟨r, hr, hw, hm⟩
    · rintro ⟨r, hr, hw, hm⟩
      exact ⟨r, ⟨hr, hw⟩, hm⟩

/-- Shared one-winner month record for concrete instantiations. -/
def sampleMonthResult : MonthResult :=
  ⟨1, some (sampleAgg, ⟨0, 0, 0, 0, 0⟩), some sampleAgg, none⟩

/-- Witness for C8 at a single month won by the sample aggregate. -/
theorem claim8_year_summary_witness :
    (∀ r ∈ [sampleMonthResult], ∀ p : MonthConvAgg × ScoreBreakdown, r.winner = some p →
      p.1.username ≠ "")
    ∧ (top_champion [sampleMonthResult] = none
        ↔ ∀ r ∈ [sampleMonthResult], r.winner = none)
    ∧ months_with_winner [sampleMonthResult]
        = [sampleMonthResult].countP (fun r => r.winner.isSome) := by
  have hclean : ∀ r ∈ [sampleMonthResult], ∀ p : MonthConvAgg × ScoreBreakdown,
      r.winner = some p → p.1.username ≠ "" := by
    intro r hr p hp
    have hr2 : r = sampleMonthResult := by simpa using hr
    subst hr2
    have hp2 : p = (sampleAgg, ⟨0, 0, 0, 0, 0⟩) := by
      have : (some (sampleAgg, (⟨0, 0, 0, 0, 0⟩ : ScoreBreakdown)) :
          Option (MonthConvAgg × ScoreBreakdown)) = some p := hp
      exact (Option.some.injEq .. ▸ this).symm
    rw [hp2]
    decide
  obtain ⟨h1, -, h3, -⟩ := claim8_year_summary [sampleMonthResult] hclean
  exact ⟨hclean, h1, h3⟩

/-- Flushing the initial state does nothing. -/
lemma flush_conv_init : flush_conv initState = initState := by
  simp [flush_conv, initState]

/-- A valid row of a new conversation flushes and switches before handling. -/
lemma step_eq_handle_change (me : String) (keep : String → Bool) (cal : ℤ → CalDate)
    (st : PassState) (e : MessageEvent) (hts : ¬ e.ts ≤ 0) (hu : e.username ≠ "")
    (hne : e.username ≠ st.cur_username) :
    step me keep cal st e
      = handle_event me keep cal { flush_conv st with cur_username := e.username } e := by
  unfold step
  rw [if_neg (by simp [hts, hu]), if_pos hne]

/-- A valid row of the current conversation is handled in place. -/
lemma step_eq_handle_same (me : String) (keep : String → Bool) (cal : ℤ → CalDate)
    (st : PassState) (e : MessageEvent) (hts : ¬ e.ts ≤ 0) (hu : e.username ≠ "")
    (heq : e.username = st.cur_username) :
    step me keep cal st e = handle_event me keep cal st e := by
  unfold step
  rw [if_neg (by simp [hts, hu]), if_neg (by simp [heq])]

/-- Handling a peer message: observe, bump incoming, track the timestamp. -/
lemma handle_event_incoming (me : String) (keep : String → Bool) (cal : ℤ → CalDate)
    (st : PassState) (e : MessageEvent) (hkeep : keep e.username = true)
    (hmonth : ¬ ((cal e.ts).month < 1 ∨ 12 < (cal e.ts).month)) (hsend : e.sender ≠ me) :
    handle_event me keep cal st e =
      { st with
        conv_month_aggs := fun m =>
          if m = (cal e.ts).month then
            some { ((st.conv_month_aggs (cal e.ts).month).getD
                (newAgg e.username (cal e.ts).month)).observe (cal e.ts).day (cal e.ts).hour with
              incoming := (((st.conv_month_aggs (cal e.ts).month).getD
                (newAgg e.username (cal e.ts).month)).observe (cal e.ts).day
                  (cal e.ts).hour).incoming + 1 }
          else st.conv_month_aggs m
        prev_other_ts := some e.ts } := by
  unfold handle_event
  rw [if_neg (by simp [hkeep]), if_neg hmonth, if_neg hsend]

/-- Handling an owner message with a pending peer timestamp not after it:
observe, bump outgoing, credit one reply with the gap, clear the pending. -/
lemma handle_event_outgoing_credit (me : String) (keep : String → Bool) (cal : ℤ → CalDate)
    (st : PassState) (e : MessageEvent) (p : ℤ) (hkeep : keep e.username = true)
    (hmonth : ¬ ((cal e.ts).month < 1 ∨ 12 < (cal e.ts).month)) (hsend : e.sender = me)
    (hp : st.prev_other_ts = some p) (hle : p ≤ e.ts) :
    handle_event me keep cal st e =
      { st with
        conv_month_aggs := fun m =>
          if m = (cal e.ts).month then
            some { ((st.conv_month_aggs (cal e.ts).month).getD
                (newAgg e.username (cal e.ts).month)).observe (cal e.ts).day (cal e.ts).hour with
              outgoing := (((st.conv_month_aggs (cal e.ts).month).getD
                (newAgg e.username (cal e.ts).month)).observe (cal e.ts).day
                  (cal e.ts).hour).outgoing + 1
              replies := (((st.conv_month_aggs (cal e.ts).month).getD
                (newAgg e.username (cal e.ts).month)).observe (cal e.ts).day
                  (cal e.ts).hour).replies + 1
              sum_gap := (((st.conv_month_aggs (cal e.ts).month).getD
                (newAgg e.username (cal e.ts).month)).observe (cal e.ts).day
                  (cal e.ts).hour).sum_gap + (e.ts - p).toNat
              sum_gap_capped := (((st.conv_month_aggs (cal e.ts).month).getD
                (newAgg e.username (cal e.ts).month)).observe (cal e.ts).day
                  (cal e.ts).hour).sum_gap_capped + min (e.ts - p).toNat gapCapSeconds }
          else st.conv_month_aggs m
        prev_other_ts := none } := by
  unfold handle_event
  rw [if_neg (by simp [hkeep]), if_neg hmonth, if_pos hsend, hp]
  dsimp only
  rw [if_pos hle]

/-- Handling an owner message with no pending peer timestamp: observe and bump
outgoing only. -/
lemma handle_event_outgoing_nopending (me : String) (keep : String → Bool) (cal : ℤ → CalDate)
    (st : PassState) (e : MessageEvent) (hkeep : keep e.username = true)
    (hmonth : ¬ ((cal e.ts).month < 1 ∨ 12 < (cal e.ts).month)) (hsend : e.sender = me)
    (hp : st.prev_other_ts = none) :
    handle_event me keep cal st e =
      { st with
        conv_month_aggs := fun m =>
          if m = (cal e.ts).month then
            some { ((st.conv_month_aggs (cal e.ts).month).getD
                (newAgg e.username (cal e.ts).month)).observe (cal e.ts).day (cal e.ts).hour with
              outgoing := (((st.conv_month_aggs (cal e.ts).month).getD
                (newAgg e.username (cal e.ts).month)).observe (cal e.ts).day
                  (cal e.ts).hour).outgoing + 1 }
          else st.conv_month_aggs m } := by
  unfold handle_event
  rw [if_neg (by simp [hkeep]), if_neg hmonth, if_pos hsend, hp]

/-- Username is untouched by observe. -/
lemma observe_username (a : MonthConvAgg) (d h : ℕ) :
    (a.observe d h).username = a.username := (observe_fields a d h).1

/-- Month is untouched by observe. -/
lemma observe_month (a : MonthConvAgg) (d h : ℕ) :
    (a.observe d h).month = a.month := (observe_fields a d h).2.1

/-- Incoming count is untouched by observe. -/
lemma observe_incoming (a : MonthConvAgg) (d h : ℕ) :
    (a.observe d h).incoming = a.incoming := (observe_fields a d h).2.2.1

/-- Outgoing count is untouched by observe. -/
lemma observe_outgoing (a : MonthConvAgg) (d h : ℕ) :
    (a.observe d h).outgoing = a.outgoing := (observe_fields a d h).2.2.2.1

/-- Reply count is untouched by observe. -/
lemma observe_replies (a : MonthConvAgg) (d h : ℕ) :
    (a.observe d h).replies = a.replies := (observe_fields a d h).2.2.2.2.1

/-- Gap sum is untouched by observe. -/
lemma observe_sum_gap (a : MonthConvAgg) (d h : ℕ) :
    (a.observe d h).sum_gap = a.sum_gap := (observe_fields a d h).2.2.2.2.2.1

/-- Capped gap sum is untouched by observe. -/
lemma observe_sum_gap_capped (a : MonthConvAgg) (d h : ℕ) :
    (a.observe d h).sum_gap_capped = a.sum_gap_capped := (observe_fields a d h).2.2.2.2.2.2

/-- C3: in a single conversation and month, the events incoming at t0,
outgoing at t0 + 60 and outgoing at t0 + 120 yield one aggregate with
replyCount 1 and sumReplyGapSeconds 60 (capped sum also 60, below the cap):
the first owner message after the pending peer message earns the only credit
and clears the pending timestamp, so the second owner message earns none; the
aggregate also records incoming 1 and outgoing 2. -/
theorem claim3_reply_gap (me u other : String) (keep : String → Bool) (cal : ℤ → CalDate)
    (t0 : ℤ) (m : ℕ)
    (hu : u ≠ "") (hother : other ≠ me) (hkeep : keep u = true) (ht0 : 0 < t0)
    (hm1 : 1 ≤ m) (hm2 : m ≤ 12)
    (hc0 : (cal t0).month = m) (hc1 : (cal (t0 + 60)).month = m)
    (hc2 : (cal (t0 + 120)).month = m) :
    ((runPass me keep cal [⟨u, other, t0⟩, ⟨u, me, t0 + 60⟩, ⟨u, me, t0 + 120⟩] m).map
        MonthConvAgg.replies = [1]
      ∧ (runPass me keep cal [⟨u, other, t0⟩, ⟨u, me, t0 + 60⟩, ⟨u, me, t0 + 120⟩] m).map
        MonthConvAgg.sum_gap = [60]
      ∧ (runPass me keep cal [⟨u, other, t0⟩, ⟨u, me, t0 + 60⟩, ⟨u, me, t0 + 120⟩] m).map
        MonthConvAgg.sum_gap_capped = [60]
      ∧ (runPass me keep cal [⟨u, other, t0⟩, ⟨u, me, t0 + 60⟩, ⟨u, me, t0 + 120⟩] m).map
        MonthConvAgg.incoming = [1]
      ∧ (runPass me keep cal [⟨u, other, t0⟩, ⟨u, me, t0 + 60⟩, ⟨u, me, t0 + 120⟩] m).map
        MonthConvAgg.outgoing = [2]
      ∧ (runPass me keep cal [⟨u, other, t0⟩, ⟨u, me, t0 + 60⟩, ⟨u, me, t0 + 120⟩] m).map
        MonthConvAgg.username = [u])
    ∧ ∀ m2, m2 ≠ m →
        runPass me keep cal [⟨u, other, t0⟩, ⟨u, me, t0 + 60⟩, ⟨u, me, t0 + 120⟩] m2 = [] := by
  have hts0 : ¬ (t0 ≤ 0) := by omega
  have hts1 : ¬ (t0 + 60 ≤ 0) := by omega
  have hts2 : ¬ (t0 + 120 ≤ 0) := by omega
  have hmrange : ¬ (m < 1 ∨ 12 < m) := by omega
  have hle1 : t0 ≤ t0 + 60 := by omega
  have hgap : (t0 + 60 - t0 : ℤ) = 60 := by omega
  have hmin : min (60 : ℕ) gapCapSeconds = 60 := by decide
  simp only [runPass, List.foldl_cons, List.foldl_nil, step, handle_event, flush_conv,
    initState, newAgg, hts0, hts1, hts2, hu, hkeep, hother, hc0, hc1, hc2, hmrange,
    hle1, hgap, hmin, MonthConvAgg.total, observe_incoming, observe_outgoing,
    observe_replies, observe_sum_gap, observe_sum_gap_capped, observe_username,
    ne_eq, not_false_iff, if_true, if_false, ite_true, ite_false, Option.getD_some,
    Option.getD_none, Int.toNat_ofNat, List.map_cons, List.map_nil]
  constructor
  · simp +decide [hm1, hm2, hu, hother, hmrange]
  · intro m2 hm2ne
    simp [hm2ne, hu]

/-- Witness for C3 at a concrete calendar, conversation and timestamps. -/
theorem claim3_reply_gap_witness :
    (fun _ : String => true) "alice" = true
    ∧ ((fun _ : ℤ => (⟨5, 10, 12⟩ : CalDate)) 1000).month = 5
    ∧ (runPass "me" (fun _ => true) (fun _ => ⟨5, 10, 12⟩)
        [⟨"alice", "peer", 1000⟩, ⟨"alice", "me", 1000 + 60⟩, ⟨"alice", "me", 1000 + 120⟩] 5).map
        MonthConvAgg.replies = [1]
    ∧ (runPass "me" (fun _ => true) (fun _ => ⟨5, 10, 12⟩)
        [⟨"alice", "peer", 1000⟩, ⟨"alice", "me", 1000 + 60⟩, ⟨"alice", "me", 1000 + 120⟩] 5).map
        MonthConvAgg.sum_gap = [60] := by
  obtain ⟨⟨hr, hs, -, -, -, -⟩, -⟩ :=
    claim3_reply_gap "me" "alice" "peer" (fun _ => true) (fun _ => ⟨5, 10, 12⟩) 1000 5
      (by decide) (by decide) rfl (by decide) (by decide) (by decide) rfl rfl rfl
  exact ⟨rfl, rfl, hr, hs⟩

/-- C10: the pending peer timestamp is scoped to the conversation, not to a
month: a peer message in month mA followed by an owner message of the same
conversation in a later month mB with timestamp not before it earns the reply
credit, with the full cross-boundary gap, in the month-mB aggregate, while the
month-mA aggregate keeps replyCount 0; the pending timestamp survives the
month boundary (it is discarded only on a conversation change or consumption). -/
theorem claim10_cross_month_credit (me u other : String) (keep : String → Bool)
    (cal : ℤ → CalDate) (t1 t2 : ℤ) (mA mB : ℕ)
    (hu : u ≠ "") (hother : other ≠ me) (hkeep : keep u = true)
    (ht1 : 0 < t1) (hle : t1 ≤ t2)
    (hA1 : 1 ≤ mA) (hA2 : mA ≤ 12) (hB1 : 1 ≤ mB) (hB2 : mB ≤ 12) (hAB : mA ≠ mB)
    (hcal1 : (cal t1).month = mA) (hcal2 : (cal t2).month = mB) :
    ((runPass me keep cal [⟨u, other, t1⟩, ⟨u, me, t2⟩] mB).map MonthConvAgg.replies = [1]
      ∧ (runPass me keep cal [⟨u, other, t1⟩, ⟨u, me, t2⟩] mB).map MonthConvAgg.sum_gap
          = [(t2 - t1).toNat]
      ∧ (runPass me keep cal [⟨u, other, t1⟩, ⟨u, me, t2⟩] mB).map MonthConvAgg.sum_gap_capped
          = [min (t2 - t1).toNat gapCapSeconds]
      ∧ (runPass me keep cal [⟨u, other, t1⟩, ⟨u, me, t2⟩] mB).map MonthConvAgg.outgoing = [1]
      ∧ (runPass me keep cal [⟨u, other, t1⟩, ⟨u, me, t2⟩] mB).map MonthConvAgg.incoming = [0]
      ∧ (runPass me keep cal [⟨u, other, t1⟩, ⟨u, me, t2⟩] mB).map MonthConvAgg.username = [u])
    ∧ ((runPass me keep cal [⟨u, other, t1⟩, ⟨u, me, t2⟩] mA).map MonthConvAgg.replies = [0]
      ∧ (runPass me keep cal [⟨u, other, t1⟩, ⟨u, me, t2⟩] mA).map MonthConvAgg.incoming = [1]
      ∧ (runPass me keep cal [⟨u, other, t1⟩, ⟨u, me, t2⟩] mA).map MonthConvAgg.outgoing = [0])
    ∧ ∀ m2, m2 ≠ mA → m2 ≠ mB →
        runPass me keep cal [⟨u, other, t1⟩, ⟨u, me, t2⟩] m2 = [] := by
  have hts1 : ¬ (t1 ≤ 0) := by omega
  have hts2 : ¬ (t2 ≤ 0) := by omega
  have hrangeA : ¬ (mA < 1 ∨ 12 < mA) := by omega
  have hrangeB : ¬ (mB < 1 ∨ 12 < mB) := by omega
  have hBA : ¬ (mB = mA) := fun hh => hAB hh.symm
  simp only [runPass, List.foldl_cons, List.foldl_nil, step, handle_event, flush_conv,
    initState, newAgg, hts1, hts2, hu, hkeep, hother, hcal1, hcal2, hrangeA, hrangeB,
    hle, hAB, hBA, MonthConvAgg.total, observe_incoming, observe_outgoing,
    observe_replies, observe_sum_gap, observe_sum_gap_capped, observe_username,
    ne_eq, not_false_iff, if_true, if_false, ite_true, ite_false, Option.getD_some,
    Option.getD_none, List.map_cons, List.map_nil]
  refine ⟨?_, ?_, ?_⟩
  · simp +decide [hB1, hB2, hu, hBA, hle]
  · simp +decide [hA1, hA2, hu, hAB, hBA, hle]
  · intro m2 hn1 hn2
    simp [hn1, hn2, hu, hle]

/-- Witness for C10 with month 1 and month 2 of a concrete calendar. -/
theorem claim10_cross_month_credit_witness :
    ((fun t : ℤ => if t < 2000 then (⟨1, 10, 12⟩ : CalDate) else ⟨2, 10, 12⟩) 1000).month = 1
    ∧ ((fun t : ℤ => if t < 2000 then (⟨1, 10, 12⟩ : CalDate) else ⟨2, 10, 12⟩) 3000).month = 2
    ∧ (runPass "me" (fun _ => true)
        (fun t => if t < 2000 then ⟨1, 10, 12⟩ else ⟨2, 10, 12⟩)
        [⟨"alice", "peer", 1000⟩, ⟨"alice", "me", 3000⟩] 2).map MonthConvAgg.replies = [1]
    ∧ (runPass "me" (fun _ => true)
        (fun t => if t < 2000 then ⟨1, 10, 12⟩ else ⟨2, 10, 12⟩)
        [⟨"alice", "peer", 1000⟩, ⟨"alice", "me", 3000⟩] 1).map MonthConvAgg.replies = [0] := by
  obtain ⟨⟨hr, -, -, -, -, -⟩, ⟨ha, -, -⟩, -⟩ :=
    claim10_cross_month_credit "me" "alice" "peer" (fun _ => true)
      (fun t => if t < 2000 then ⟨1, 10, 12⟩ else ⟨2, 10, 12⟩) 1000 3000 1 2
      (by decide) (by decide) rfl (by decide) (by decide) (by decide) (by decide)
      (by decide) (by decide) (by decide) (by decide) (by decide)
  exact ⟨by decide, by decide, hr, ha⟩

/-- Empty string is the least string. -/
lemma empty_le_str (s : String) : "" ≤ s := by
  rcases eq_or_ne s "" with rfl | h
  · exact le_refl _
  · apply le_of_lt
    rw [String.lt_iff_toList_lt]
    obtain ⟨data⟩ := s
    cases data with
    | nil => exact absurd rfl h
    | cons c cs => exact List.nil_lt_cons c cs

/-- Structural facts about flushing a state with a current conversation. -/
lemma flush_conv_facts (st : PassState) (hcur : st.cur_username ≠ "") :
    (flush_conv st).cur_username = st.cur_username
    ∧ (flush_conv st).conv_month_aggs = (fun _ => none)
    ∧ (flush_conv st).prev_other_ts = none
    ∧ ∀ m, (flush_conv st).per_month_aggs m
        = st.per_month_aggs m
          ++ (match st.conv_month_aggs m with
              | some agg => if 1 ≤ m ∧ m ≤ 12 ∧ 0 < agg.total then [agg] else []
              | none => []) := by
  unfold flush_conv
  rw [if_neg hcur]
  refine ⟨rfl, rfl, rfl, ?_⟩
  intro m
  dsimp only
  cases hm : st.conv_month_aggs m with
  | none => simp
  | some agg =>
    dsimp only
    by_cases hc : 1 ≤ m ∧ m ≤ 12 ∧ 0 < agg.total
    · rw [if_pos hc, if_pos hc]
    · rw [if_neg hc, if_neg hc]
      simp

/-- A pooled aggregate after a flush was pooled before or was in progress. -/
lemma mem_flush_conv_pools {st : PassState} {m : ℕ} {a : MonthConvAgg}
    (h : a ∈ (flush_conv st).per_month_aggs m) :
    a ∈ st.per_month_aggs m ∨ st.conv_month_aggs m = some a := by
  unfold flush_conv at h
  by_cases hcur : st.cur_username = ""
  · rw [if_pos hcur] at h
    exact Or.inl h
  · rw [if_neg hcur] at h
    dsimp only at h
    cases hm : st.conv_month_aggs m with
    | none =>
      rw [hm] at h
      exact Or.inl h
    | some agg =>
      rw [hm] at h
      dsimp only at h
      by_cases hc : 1 ≤ m ∧ m ≤ 12 ∧ 0 < agg.total
      · rw [if_pos hc] at h
        rcases List.mem_append.mp h with h2 | h2
        · exact Or.inl h2
        · have ha : a = agg := by simpa using h2
          exact Or.inr (by rw [ha])
      · rw [if_neg hc] at h
        exact Or.inl h

/-- Single-pass invariant: pooled usernames are distinct per month, pooled
aggregates belong to conversations strictly before the current one, the
in-progress aggregates belong to the current conversation, and with no
current conversation nothing is in progress. -/
def Inv (st : PassState) : Prop :=
  (∀ m, ((st.per_month_aggs m).map MonthConvAgg.username).Nodup)
  ∧ (∀ m a, a ∈ st.per_month_aggs m → a.username < st.cur_username)
  ∧ (∀ m a, st.conv_month_aggs m = some a → a.username = st.cur_username)
  ∧ (st.cur_username = "" → ∀ m, st.conv_month_aggs m = none)

/-- Flushing keeps pooled usernames distinct per month. -/
lemma flush_conv_pools_nodup (st : PassState) (hinv : Inv st) :
    ∀ m, (((flush_conv st).per_month_aggs m).map MonthConvAgg.username).Nodup := by
  intro m
  by_cases hcur : st.cur_username = ""
  · unfold flush_conv
    rw [if_pos hcur]
    exact hinv.1 m
  · rw [(flush_conv_facts st hcur).2.2.2 m]
    cases hm : st.conv_month_aggs m with
    | none => simpa using hinv.1 m
    | some agg =>
      dsimp only
      by_cases hc : 1 ≤ m ∧ m ≤ 12 ∧ 0 < agg.total
      · rw [if_pos hc, List.map_append]
        refine List.Nodup.append (hinv.1 m) (List.nodup_singleton _) ?_
        intro x hx hx2
        have hxa : x = agg.username := by simpa using hx2
        obtain ⟨b, hb, hbx⟩ := List.mem_map.mp hx
        have hlt := hinv.2.1 m b hb
        have heq := hinv.2.2.1 m agg hm
        rw [hbx] at hlt
        rw [hxa, heq] at hlt
        exact absurd hlt (lt_irrefl _)
      · rw [if_neg hc]
        simpa using hinv.1 m


/-- Flushing keeps pooled usernames below any bound above the current one. -/
lemma flush_conv_pools_lt (st : PassState) (hinv : Inv st) (v : String)
    (hv : st.cur_username < v) :
    ∀ m a, a ∈ (flush_conv st).per_month_aggs m → a.username < v := by
  intro m a h
  rcases mem_flush_conv_pools h with h2 | h2
  · exact lt_trans (hinv.2.1 m a h2) hv
  · rw [hinv.2.2.1 m a h2]
    exact hv

/-- Handling an event does not change the current conversation. -/
lemma handle_event_cur (me : String) (keep : String → Bool) (cal : ℤ → CalDate)
    (st : PassState) (e : MessageEvent) :
    (handle_event me keep cal st e).cur_username = st.cur_username := by
  unfold handle_event
  dsimp only
  repeat' split
  all_goals rfl

/-- Handling an event does not change the global pools. -/
lemma handle_event_pools (me : String) (keep : String → Bool) (cal : ℤ → CalDate)
    (st : PassState) (e : MessageEvent) :
    (handle_event me keep cal st e).per_month_aggs = st.per_month_aggs := by
  unfold handle_event
  dsimp only
  repeat' split
  all_goals rfl

/-- Handling an event of the current conversation keeps every in-progress
aggregate owned by the current conversation. -/
lemma handle_event_aggs_username (me : String) (keep : String → Bool) (cal : ℤ → CalDate)
    (st : PassState) (e : MessageEvent)
    (hinv : ∀ m a, st.conv_month_aggs m = some a → a.username = st.cur_username)
    (hcur : e.username = st.cur_username) :
    ∀ m a, (handle_event me keep cal st e).conv_month_aggs m = some a →
      a.username = st.cur_username := by
  have hagg0 : ∀ mm,
      ((st.conv_month_aggs mm).getD (newAgg e.username mm)).username = st.cur_username := by
    intro mm
    cases hmm : st.conv_month_aggs mm with
    | some b => simpa using hinv mm b hmm
    | none => simpa [newAgg] using hcur
  unfold handle_event
  dsimp only
  repeat' split
  all_goals intro m a h
  all_goals
    first
      | exact hinv m a h
      | (dsimp only at h
         by_cases hm : m = (cal e.ts).month
         · rw [if_pos hm] at h
           have ha := Option.some.inj h
           rw [← ha]
           dsimp only
           rw [observe_username]
           exact hagg0 _
         · rw [if_neg hm] at h
           exact hinv m a h)

/-- One step either keeps the current conversation or switches to the event. -/
lemma step_cur (me : String) (keep : String → Bool) (cal : ℤ → CalDate)
    (st : PassState) (e : MessageEvent) :
    (step me keep cal st e).cur_username = st.cur_username
      ∨ (step me keep cal st e).cur_username = e.username := by
  unfold step
  split
  · exact Or.inl rfl
  · split
    · right
      rw [handle_event_cur]
    · left
      rw [handle_event_cur]

/-- The initial state satisfies the invariant. -/
lemma inv_init : Inv initState := by
  refine ⟨?_, ?_, ?_, ?_⟩
  · intro m
    simp [initState]
  · intro m a h
    simp [initState] at h
  · intro m a h
    simp [initState] at h
  · intro _ m
    rfl

/-- One step preserves the invariant when the event is not behind the current
conversation in the ordering. -/
lemma inv_step (me : String) (keep : String → Bool) (cal : ℤ → CalDate)
    (st : PassState) (e : MessageEvent) (hinv : Inv st)
    (hord : st.cur_username ≤ e.username ∨ st.cur_username = "") :
    Inv (step me keep cal st e) := by
  unfold step
  split
  · exact hinv
  · rename_i hskip
    have hu : e.username ≠ "" := fun h0 => hskip (Or.inr h0)
    split
    · rename_i hchange
      have hcurlt : st.cur_username < e.username := by
        rcases hord with h | h
        · exact lt_of_le_of_ne h (fun hh => hchange hh.symm)
        · rw [h]
          exact lt_of_le_of_ne (empty_le_str _) (fun hh => hu hh.symm)
      refine ⟨?_, ?_, ?_, ?_⟩
      · intro m
        rw [handle_event_pools]
        exact flush_conv_pools_nodup st hinv m
      · intro m a h
        rw [handle_event_pools] at h
        rw [handle_event_cur]
        exact flush_conv_pools_lt st hinv e.username hcurlt m a h
      · intro m a h
        have hTinv : ∀ m2 a2,
            ({ flush_conv st with cur_username := e.username } : PassState).conv_month_aggs m2
              = some a2 → a2.username
                = ({ flush_conv st with cur_username := e.username } : PassState).cur_username := by
          intro m2 a2 h2
          exfalso
          have h3 : (flush_conv st).conv_month_aggs m2 = some a2 := h2
          by_cases hcur0 : st.cur_username = ""
          · unfold flush_conv at h3
            rw [if_pos hcur0] at h3
            rw [hinv.2.2.2 hcur0 m2] at h3
            exact Option.noConfusion h3
          · rw [(flush_conv_facts st hcur0).2.1] at h3
            exact absurd h3 (by simp)
        have h4 := handle_event_aggs_username me keep cal
          { flush_conv st with cur_username := e.username } e hTinv rfl m a h
        rw [handle_event_cur]
        exact h4
      · intro hc0
        rw [handle_event_cur] at hc0
        exact absurd hc0 hu
    · rename_i hsame
      have hcur : e.username = st.cur_username := not_ne_iff.mp hsame
      refine ⟨?_, ?_, ?_, ?_⟩
      · intro m
        rw [handle_event_pools]
        exact hinv.1 m
      · intro m a h
        rw [handle_event_pools] at h
        rw [handle_event_cur]
        exact hinv.2.1 m a h
      · intro m a h
        rw [handle_event_cur]
        exact handle_event_aggs_username me keep cal st e hinv.2.2.1 hcur m a h
      · intro hc0
        rw [handle_event_cur] at hc0
        rw [hcur] at hu
        exact absurd hc0 hu

/-- The fold over an ordered suffix preserves the invariant. -/
lemma inv_foldl (me : String) (keep : String → Bool) (cal : ℤ → CalDate) :
    ∀ (evs : List MessageEvent) (st : PassState), Inv st →
      (∀ e2 ∈ evs, st.cur_username ≤ e2.username ∨ st.cur_username = "") →
      evs.Pairwise (fun a b => a.username ≤ b.username) →
      Inv (evs.foldl (step me keep cal) st) := by
  intro evs
  induction evs with
  | nil =>
    intro st h _ _
    exact h
  | cons e rest ih =>
    intro st hinv hord hpair
    rw [List.foldl_cons]
    apply ih
    · exact inv_step me keep cal st e hinv (hord e (List.mem_cons_self e rest))
    · intro e2 he2
      rcases step_cur me keep cal st e with hc | hc
      · rw [hc]
        exact hord e2 (List.mem_cons_of_mem e he2)
      · rw [hc]
        exact Or.inl ((List.pairwise_cons.mp hpair).1 e2 he2)
    · exact (List.pairwise_cons.mp hpair).2

/-- C2: on a conversation change the step flushes first (every in-progress
aggregate with total > 0 and month in 1..12 is appended to its month pool,
everything else is dropped) and resets the conversation-scoped state, then
handles the event in the switched state; consequently, for an input sequence
ordered ascending by conversationId the final pool holds at most one
aggregate per (conversationId, month) pair, so scoring sees only aggregates
of fully consumed conversations. -/
theorem claim2_flush_and_uniqueness (me : String) (keep : String → Bool) (cal : ℤ → CalDate) :
    (∀ st e, ¬ (e : MessageEvent).ts ≤ 0 → e.username ≠ "" →
      e.username ≠ st.cur_username →
      step me keep cal st e
        = handle_event me keep cal { flush_conv st with cur_username := e.username } e)
    ∧ (∀ st : PassState, st.cur_username ≠ "" →
        (flush_conv st).conv_month_aggs = (fun _ => none)
        ∧ (flush_conv st).prev_other_ts = none
        ∧ ∀ m, (flush_conv st).per_month_aggs m
            = st.per_month_aggs m
              ++ (match st.conv_month_aggs m with
                  | some agg => if 1 ≤ m ∧ m ≤ 12 ∧ 0 < agg.total then [agg] else []
                  | none => []))
    ∧ (∀ events : List MessageEvent,
        events.Pairwise (fun a b => a.username ≤ b.username) →
        ∀ m, ((runPass me keep cal events m).map MonthConvAgg.username).Nodup) := by
  refine ⟨?_, ?_, ?_⟩
  · intro st e hts hu hne
    exact step_eq_handle_change me keep cal st e hts hu hne
  · intro st hcur
    exact ⟨(flush_conv_facts st hcur).2.1, (flush_conv_facts st hcur).2.2.1,
      (flush_conv_facts st hcur).2.2.2⟩
  · intro events hpair m
    have hinv := inv_foldl me keep cal events initState inv_init
      (fun e2 _ => Or.inr rfl) hpair
    exact flush_conv_pools_nodup _ hinv m

/-- Witness for C2 on a concrete ordered event list. -/
theorem claim2_flush_and_uniqueness_witness :
    ([⟨"alice", "peer", 1000⟩, ⟨"alice", "peer", 1500⟩] : List MessageEvent).Pairwise
      (fun a b => a.username ≤ b.username)
    ∧ ∀ m, ((runPass "me" (fun _ => true) (fun _ => ⟨5, 10, 12⟩)
        [⟨"alice", "peer", 1000⟩, ⟨"alice", "peer", 1500⟩] m).map
          MonthConvAgg.username).Nodup := by
  have hpair : ([⟨"alice", "peer", 1000⟩, ⟨"alice", "peer", 1500⟩] : List MessageEvent).Pairwise
      (fun a b => a.username ≤ b.username) := by
    refine List.pairwise_cons.mpr ⟨?_, ?_⟩
    · intro e he
      have he2 : e = ⟨"alice", "peer", 1500⟩ := by simpa using he
      rw [he2]
    · exact List.pairwise_singleton _ _
  exact ⟨hpair, (claim2_flush_and_uniqueness "me" (fun _ => true)
    (fun _ => ⟨5, 10, 12⟩)).2.2 [⟨"alice", "peer", 1000⟩, ⟨"alice", "peer", 1500⟩] hpair⟩

end MonthlyBestFriends
